import Mathlib

/-!
# Verification of the uwsgi proxy handler

A shallow embedding of the Go package `uwsgi` (file `uwsgi.go`): an
`http.Handler` that maps an inbound HTTP request to an ordered list of
uwsgi variables, encodes them into the binary uwsgi packet, and acquires a
backend connection with bounded exponential backoff.

Go strings are byte sequences; we model them as `List Nat` (each element a
byte value).  String literals are converted with `bytes`, valid for the
ASCII literals appearing in the source.
-/

/-- Byte-list view of an ASCII string literal (Go strings are byte
sequences; for ASCII, the UTF-8 bytes are the character codes). -/
def bytes (s : String) : List Nat := s.data.map Char.toNat

/-- One uwsgi variable: a name/value pair of byte strings.  Mirrors the
anonymous `struct { name, value string }` (`hdr`) in `ServeHTTP`. -/
structure Hdr where
  name : List Nat
  value : List Nat
deriving DecidableEq, Repr

/-- `maxSize` from the source: `1<<16 - 1`, the maximum uwsgi packet
payload size and maximum per-field size. -/
def maxSize : Nat := 65535

/-- The running total computed by the loop `size += len(h.name) +
len(h.value) + 4` in `ServeHTTP`. -/
def headersSize (hs : List Hdr) : Nat :=
  hs.foldl (fun acc h => acc + h.name.length + h.value.length + 4) 0

/-- `binary.Write(buf, binary.LittleEndian, uint16(n))`: the value is
truncated to 16 bits and written as two little-endian bytes. -/
def putU16 (n : Nat) : List Nat :=
  [n % 65536 % 256, n % 65536 / 256 % 256]

/-- The 4-byte uwsgi packet prefix: `uwsgiHeader := make([]byte, 4)`
followed by `binary.LittleEndian.PutUint16(uwsgiHeader[1:3],
uint16(size))` — bytes 0 and 3 stay zero. -/
def uwsgiHeaderBytes (size : Nat) : List Nat :=
  [0] ++ putU16 size ++ [0]

/-- One iteration of the encoding loop in `ServeHTTP`: append the 16-bit
little-endian name length, the name bytes, the 16-bit little-endian value
length, and the value bytes to the buffer. -/
def writeHdr (buf : List Nat) (h : Hdr) : List Nat :=
  buf ++ putU16 h.name.length ++ h.name ++ putU16 h.value.length ++ h.value

/-- The full packet built in `ServeHTTP` lines 161–171: prefix then the
encoding loop over all headers. -/
def encodePacket (hs : List Hdr) : List Nat :=
  hs.foldl writeHdr (uwsgiHeaderBytes (headersSize hs))

/-- True little-endian 16-bit rendering of a number `n < 65536` (the
specification's "16-bit little-endian length"). -/
def le16 (n : Nat) : List Nat := [n % 256, n / 256]

/-- The specification's per-pair wire image: LE16 length of name, raw
name, LE16 length of value, raw value. -/
def encodePairSpec (h : Hdr) : List Nat :=
  le16 h.name.length ++ h.name ++ le16 h.value.length ++ h.value

/-- The packet payload as the specification describes it: concatenation
of the per-pair images in order. -/
def payloadSpec (hs : List Hdr) : List Nat :=
  (hs.map encodePairSpec).flatten

-- ## Basic facts about the encoder

theorem headersSize_foldl_shift (t : List Hdr) : ∀ a c : Nat,
    List.foldl (fun acc h => acc + h.name.length + h.value.length + 4) (a + c) t =
      List.foldl (fun acc h => acc + h.name.length + h.value.length + 4) a t + c := by
  induction t with
  | nil => intro a c; rfl
  | cons x xs ih =>
    intro a c
    simp only [List.foldl]
    have h1 : a + c + x.name.length + x.value.length + 4 =
        a + x.name.length + x.value.length + 4 + c := by omega
    rw [h1, ih]

theorem headersSize_cons (h : Hdr) (t : List Hdr) :
    headersSize (h :: t) =
      headersSize t + h.name.length + h.value.length + 4 := by
  show List.foldl _ (0 + h.name.length + h.value.length + 4) t = _
  have h1 : 0 + h.name.length + h.value.length + 4 =
      0 + (h.name.length + h.value.length + 4) := by omega
  rw [h1, headersSize_foldl_shift]
  rw [headersSize]
  omega

theorem headersSize_eq_sum (hs : List Hdr) :
    headersSize hs =
      (hs.map fun h => h.name.length + h.value.length + 4).sum := by
  induction hs with
  | nil => rfl
  | cons h t ih => rw [headersSize_cons, ih]; simp [List.sum_cons]; omega

theorem mem_le_headersSize {h : Hdr} {hs : List Hdr} (hm : h ∈ hs) :
    h.name.length + h.value.length + 4 ≤ headersSize hs := by
  rw [headersSize_eq_sum]
  exact List.single_le_sum (fun x _ => Nat.zero_le x) _
    (List.mem_map_of_mem _ hm)

theorem putU16_eq_le16 {n : Nat} (hn : n ≤ 65535) : putU16 n = le16 n := by
  unfold putU16 le16
  have h1 : n % 65536 = n := Nat.mod_eq_of_lt (by omega)
  have h2 : n / 256 < 256 := by omega
  rw [h1, Nat.mod_eq_of_lt h2]

theorem encode_foldl_append (hs : List Hdr) (init : List Nat) :
    hs.foldl writeHdr init =
      init ++ (hs.map fun h =>
        putU16 h.name.length ++ h.name ++ putU16 h.value.length ++ h.value).flatten := by
  induction hs generalizing init with
  | nil => simp
  | cons h t ih =>
    simp only [List.foldl, List.map, List.flatten, ih, writeHdr]
    simp [List.append_assoc]

-- ## Auxiliary string functions from the Go standard library

/-- `strings.IndexByte` / `bytealg.IndexByteString`: index of the first
occurrence of byte `c`, `none` when absent (Go returns -1). -/
def byteIndex (c : Nat) : List Nat → Option Nat
  | [] => none
  | b :: bs => if b = c then some 0 else (byteIndex c bs).map (· + 1)

/-- `last(hostPort, ':')` from `net.SplitHostPort`: index of the last
occurrence of byte `c`. -/
def lastByteIndex (c : Nat) (s : List Nat) : Option Nat :=
  match byteIndex c s.reverse with
  | none => none
  | some j => some (s.length - 1 - j)

/-- `net.SplitHostPort` (Go standard library, `net/ipsock.go`): split
`host:port` (or `[host]:port`) at the last colon, with the bracket and
extra-colon validity checks; all error returns collapse to `none`. -/
def splitHostPort (s : List Nat) : Option (List Nat × List Nat) :=
  match lastByteIndex 58 s with
  | none => none                                    -- missing port
  | some i =>
    if s.head? = some 91 then                       -- leading '['
      match byteIndex 93 s with                     -- first ']'
      | none => none                                -- missing ']'
      | some e =>
        if e + 1 = s.length then none               -- missing port
        else if e + 1 = i then
          if byteIndex 91 (s.drop 1) ≠ none then none
          else if byteIndex 93 (s.drop (e + 1)) ≠ none then none
          else some ((s.drop 1).take (e - 1), s.drop (i + 1))
        else none                                   -- too many colons / missing port
    else
      if byteIndex 58 (s.take i) ≠ none then none   -- too many colons
      else if byteIndex 91 s ≠ none then none
      else if byteIndex 93 s ≠ none then none
      else some (s.take i, s.drop (i + 1))

/-- `strings.Join(v, ", ")` over the values of one inbound header. -/
def joinComma : List (List Nat) → List Nat
  | [] => []
  | [x] => x
  | x :: xs => x ++ [44, 32] ++ joinComma xs

/-- `unicode.ToUpper` restricted to single-byte (ASCII) characters: the
only case exercised by HTTP header keys, which Go's `textproto` keeps in
canonical ASCII form. -/
def toUpperByte (b : Nat) : Nat :=
  if 97 ≤ b ∧ b ≤ 122 then b - 32 else b

/-- The rune mapping passed to `strings.Map` in `ServeHTTP`: `-` becomes
`_`, everything else is uppercased. -/
def mapKeyByte (b : Nat) : Nat :=
  if b = 45 then 95 else toUpperByte b

/-- The transformed name of a pass-through header: `"HTTP_" +
strings.Map(..., k)` (byte-level model, valid for ASCII keys). -/
def transformKey (k : List Nat) : List Nat :=
  bytes "HTTP_" ++ k.map mapKeyByte

/-- `strconv.FormatInt(n, 10)` for the values reachable from
`r.ContentLength`: signed decimal rendering. -/
def formatInt (i : Int) : List Nat :=
  if i < 0 then 45 :: (Nat.toDigits 10 (-i).toNat).map Char.toNat
  else (Nat.toDigits 10 i.toNat).map Char.toNat

-- ## The inbound request model

/-- The projection of `*http.Request` (plus the two context values the
handler reads) that `ServeHTTP` consumes.  `headers` is `r.Header`, an
association list of canonical-form keys to value lists; the list order
models one concrete iteration order of the Go map (which Go randomizes
per `range` loop). -/
structure Request where
  rawQuery : List Nat                         -- r.URL.RawQuery
  method : List Nat                           -- r.Method
  contentLength : Int                         -- r.ContentLength
  requestURI : List Nat                       -- r.RequestURI
  path : List Nat                             -- r.URL.Path
  proto : List Nat                            -- r.Proto
  host : List Nat                             -- r.Host
  scheme : List Nat                           -- r.URL.Scheme
  headers : List (List Nat × List (List Nat)) -- r.Header with an iteration order
  remoteAddr : List Nat                       -- r.RemoteAddr
  localAddr : Option (List Nat)               -- LocalAddrContextKey value's String()
  body : List Nat                             -- r.Body contents
deriving DecidableEq, Repr

/-- First binding of key `k` in an association list (Go map lookup; a Go
map has at most one binding per key). -/
def lookupVals (k : List Nat) : List (List Nat × List (List Nat)) → Option (List (List Nat))
  | [] => none
  | kv :: rest => if kv.1 = k then some kv.2 else lookupVals k rest

/-- `r.Header.Get(k)`: the first value stored under the canonical key, or
the empty string when the key is absent or has no values. -/
def getHeader (r : Request) (k : List Nat) : List Nat :=
  match lookupVals k r.headers with
  | some (v :: _) => v
  | _ => []

-- ## The header mapper (ServeHTTP lines 57–111)

/-- The eight positional variables appended first (lines 64–73). -/
def base8 (r : Request) : List Hdr :=
  [⟨bytes "QUERY_STRING", r.rawQuery⟩,
   ⟨bytes "REQUEST_METHOD", r.method⟩,
   ⟨bytes "CONTENT_TYPE", getHeader r (bytes "Content-Type")⟩,
   ⟨bytes "CONTENT_LENGTH", formatInt r.contentLength⟩,
   ⟨bytes "REQUEST_URI", r.requestURI⟩,
   ⟨bytes "PATH_INFO", r.path⟩,
   ⟨bytes "SERVER_PROTOCOL", r.proto⟩,
   ⟨bytes "SERVER_NAME", r.host⟩]

/-- The https test on line 74: `r.URL.Scheme == "https" ||
r.Header.Get("X-Forwarded-Proto") == "https"`. -/
def isHttps (r : Request) : Prop :=
  r.scheme = bytes "https" ∨ getHeader r (bytes "X-Forwarded-Proto") = bytes "https"

instance (r : Request) : Decidable (isHttps r) := by
  unfold isHttps; infer_instance

/-- Lines 74–82: the `HTTPS`/`SERVER_PORT` block.  On the https branch a
fixed `443` is used; otherwise the port comes from the local address when
the context carries one and it splits, and the literal `80` is used only
when the context carries no local address at all. -/
def securityPortPart (r : Request) : List Hdr :=
  if isHttps r then
    [⟨bytes "HTTPS", bytes "on"⟩, ⟨bytes "SERVER_PORT", bytes "443"⟩]
  else match r.localAddr with
    | some a =>
      match splitHostPort a with
      | some (_, port) => [⟨bytes "SERVER_PORT", port⟩]
      | none => []
    | none => [⟨bytes "SERVER_PORT", bytes "80"⟩]

/-- Lines 84–90: the X-Forwarded-For trimming — cut at the first comma
only when that comma's index is strictly positive. -/
def stripComma (s : List Nat) : List Nat :=
  match byteIndex 44 s with
  | some i => if 0 < i then s.take i else s
  | none => s

/-- Lines 83–96: `REMOTE_ADDR` (from X-Forwarded-For when present, else
from the split peer address) and `REMOTE_PORT` (from the split peer
address when it splits). -/
def remotePart (r : Request) : List Hdr :=
  let s := getHeader r (bytes "X-Forwarded-For")
  let fwd : List Hdr := if s ≠ [] then [⟨bytes "REMOTE_ADDR", stripComma s⟩] else []
  match splitHostPort r.remoteAddr with
  | some (host, port) =>
    fwd ++ (if s ≠ [] then [] else [⟨bytes "REMOTE_ADDR", host⟩])
      ++ [⟨bytes "REMOTE_PORT", port⟩]
  | none => fwd

/-- Lines 97–111: pass-through headers — every inbound header (in map
iteration order) with transformed name and `", "`-joined values. -/
def extraHeaders (r : Request) : List Hdr :=
  r.headers.map fun kv => ⟨transformKey kv.1, joinComma kv.2⟩

/-- The complete ordered variable list `headers` as it stands at line
111, before the size checks. -/
def mappedHeaders (r : Request) : List Hdr :=
  base8 r ++ securityPortPart r ++ remotePart r ++ extraHeaders r

/-- Per-field size test `len(h.name) > maxSize || len(h.value) > maxSize`. -/
def oversized (h : Hdr) : Bool :=
  maxSize < h.name.length || maxSize < h.value.length

/-- Errors produced by the validation phase of `ServeHTTP`. -/
inductive MapError where
  | trailers                          -- "Request trailers are not supported"
  | headerTooLarge (name : List Nat)  -- "Header %q is too large"
  | fieldsTooLarge                    -- StatusText(431)
deriving DecidableEq, Repr

/-- The HTTP status `http.Error` is called with for each `MapError`. -/
def MapError.status : MapError → Nat
  | .trailers => 400        -- http.StatusBadRequest
  | .headerTooLarge _ => 431 -- http.StatusRequestHeaderFieldsTooLarge
  | .fieldsTooLarge => 431

/-- Lines 57–125: validation around the header mapper.  The pass-through
loop rejects at the first oversized transformed header (`find?` returns
the first member satisfying `oversized`, exactly the first loop
iteration that trips the bound); the size loop then rejects if any field
at all is oversized, and finally if the total exceeds `maxSize`. -/
def buildHeaders (r : Request) : Except MapError (List Hdr) :=
  if getHeader r (bytes "Trailer") ≠ [] then .error .trailers
  else match (extraHeaders r).find? oversized with
  | some h => .error (.headerTooLarge h.name)
  | none =>
    if (mappedHeaders r).any oversized then .error .fieldsTooLarge
    else if maxSize < headersSize (mappedHeaders r) then .error .fieldsTooLarge
    else .ok (mappedHeaders r)

-- ## The connection acquirer (ServeHTTP lines 126–158)

/-- Classification of one call of the injected dial function: success,
`context.Canceled`, a `net.Error` with `Temporary() == true`, or any
other error. -/
inductive DialResult where
  | ok
  | canceled
  | transient
  | other
deriving DecidableEq, Repr

/-- The environment of the retry loop: the dial result of the n-th
attempt (0-based), and whether `r.Context().Done()` fires during the
wait following the n-th attempt (the `select` on lines 148–153). -/
structure DialEnv where
  result : Nat → DialResult
  cancelDuringWait : Nat → Bool

/-- How the connect loop ends.  Each constructor records the number of
dial attempts made and the list of completed backoff waits in
milliseconds. -/
inductive ConnectOutcome where
  | connected (attempts : Nat) (waits : List Nat)
  | abortPanic (attempts : Nat) (waits : List Nat)          -- panic(http.ErrAbortHandler)
  | gatewayTimeout (attempts : Nat) (waits : List Nat)      -- http.Error 504
  | serviceUnavailable (attempts : Nat) (waits : List Nat)  -- http.Error 503
deriving DecidableEq, Repr

/-- Lines 137–141: the `tempDelay` update — `5*time.Millisecond` on the
first transient failure, doubled afterwards (durations in ms). -/
def nextDelay (tempDelay : Nat) : Nat :=
  if tempDelay = 0 then 5 else tempDelay * 2

/-- The `for` loop on lines 129–158, with durations in milliseconds
(`tempDelay` starts at 0, first becomes `5*time.Millisecond`, doubles,
and the loop gives up once it exceeds `time.Second` = 1000 ms).  `n` is
the index of the next attempt, `waits` accumulates completed waits in
reverse.  `fuel` bounds the number of attempts modelled; `none` means the
fuel ran out before the loop terminated. -/
def connectLoop (env : DialEnv) : Nat → Nat → Nat → List Nat → Option ConnectOutcome
  | 0, _, _, _ => none
  | fuel + 1, n, tempDelay, waits =>
    match env.result n with
    | .ok => some (.connected (n + 1) waits.reverse)
    | .canceled => some (.abortPanic (n + 1) waits.reverse)
    | .transient =>
      if 1000 < nextDelay tempDelay then
        some (.gatewayTimeout (n + 1) waits.reverse)
      else if env.cancelDuringWait n then
        some (.abortPanic (n + 1) waits.reverse)
      else connectLoop env fuel (n + 1) (nextDelay tempDelay)
        (nextDelay tempDelay :: waits)
    | .other => some (.serviceUnavailable (n + 1) waits.reverse)

-- ## The orchestrator

/-- Observable outcome of one `ServeHTTP` run: the HTTP error status
written (if any), the number of dial attempts, and every byte written to
the backend connection.  `aborted` is `panic(http.ErrAbortHandler)` — no
response bytes are written.  `proxied` summarizes the post-connect
phase: the framed packet followed by the request body is written and the
backend reply is relayed. -/
inductive ServeOutcome where
  | errorResponse (status : Nat) (attempts : Nat) (backendBytes : List Nat)
  | aborted (attempts : Nat) (backendBytes : List Nat)
  | proxied (attempts : Nat) (backendBytes : List Nat)
deriving DecidableEq, Repr

/-- `ServeHTTP` as a function of the request and the dial environment
(body relay and backend response parsing are summarized by `proxied`;
every claim under verification concerns the phases before them).
`none` only when `fuel` is too small for the connect loop. -/
def serveHTTP (r : Request) (env : DialEnv) (fuel : Nat) : Option ServeOutcome :=
  match buildHeaders r with
  | .error e => some (.errorResponse e.status 0 [])
  | .ok hs =>
    match connectLoop env fuel 0 0 [] with
    | none => none
    | some (.connected a _) => some (.proxied a (encodePacket hs ++ r.body))
    | some (.abortPanic a _) => some (.aborted a [])
    | some (.gatewayTimeout a _) => some (.errorResponse 504 a [])
    | some (.serviceUnavailable a _) => some (.errorResponse 503 a [])

instance {ε α : Type} [DecidableEq ε] [DecidableEq α] : DecidableEq (Except ε α) :=
  fun a b => match a, b with
  | .ok x, .ok y =>
    if h : x = y then isTrue (congrArg Except.ok h)
    else isFalse fun hc => h (Except.ok.inj hc)
  | .error x, .error y =>
    if h : x = y then isTrue (congrArg Except.error h)
    else isFalse fun hc => h (Except.error.inj hc)
  | .ok _, .error _ => isFalse Except.noConfusion
  | .error _, .ok _ => isFalse Except.noConfusion

-- ## C1: the wire format of the encoded packet

theorem encodePairSpec_of_le {h : Hdr} (hn : h.name.length ≤ 65535)
    (hv : h.value.length ≤ 65535) :
    putU16 h.name.length ++ h.name ++ putU16 h.value.length ++ h.value =
      encodePairSpec h := by
  rw [encodePairSpec, putU16_eq_le16 hn, putU16_eq_le16 hv]

theorem encodePacket_eq_spec {hs : List Hdr} (hts : headersSize hs ≤ maxSize) :
    encodePacket hs = uwsgiHeaderBytes (headersSize hs) ++ payloadSpec hs
      ∧ uwsgiHeaderBytes (headersSize hs) =
        [0, headersSize hs % 256, headersSize hs / 256, 0] := by
  have hmax : maxSize = 65535 := rfl
  have hhead : uwsgiHeaderBytes (headersSize hs) =
      [0, headersSize hs % 256, headersSize hs / 256, 0] := by
    simp [uwsgiHeaderBytes, putU16_eq_le16 hts, le16]
  refine ⟨?_, hhead⟩
  rw [encodePacket, encode_foldl_append, payloadSpec]
  have hmap : (hs.map fun h =>
      putU16 h.name.length ++ h.name ++ putU16 h.value.length ++ h.value) =
        hs.map encodePairSpec := by
    apply List.map_congr_left
    intro h hm
    have hb := mem_le_headersSize hm
    exact encodePairSpec_of_le (by omega) (by omega)
  rw [hmap]

/-- C1: for a header set whose total encoded size is at most 65535, the
packet written to the backend is byte 0 = 0, bytes 1–2 the little-endian
16-bit total payload size, byte 3 = 0, followed by the pairs in order,
each as LE16 name length, raw name, LE16 value length, raw value; and
the size field equals the sum over the pairs of len(name)+len(value)+4. -/
theorem packet_format_correct (hs : List Hdr) (hts : headersSize hs ≤ maxSize) :
    encodePacket hs =
      0 :: (headersSize hs % 256) :: (headersSize hs / 256) :: 0 :: payloadSpec hs
    ∧ headersSize hs % 256 + 256 * (headersSize hs / 256) = headersSize hs
    ∧ headersSize hs = (hs.map fun h => h.name.length + h.value.length + 4).sum := by
  obtain ⟨h1, h2⟩ := encodePacket_eq_spec hts
  refine ⟨?_, Nat.mod_add_div _ _, headersSize_eq_sum hs⟩
  rw [h1, h2]
  rfl

/-- A small concrete header set used by witnesses. -/
def hsAb : List Hdr := [⟨bytes "A", bytes "b"⟩]

-- ## C2: decoding the packet recovers the pairs

/-- Modelled from the spec: the decoding loop the round-trip property
describes — repeatedly read a 16-bit little-endian length-prefixed name
and a 16-bit little-endian length-prefixed value until the payload is
consumed.  `fuel` bounds the number of pairs; decoding fails on a
truncated payload. -/
def decodePairs : Nat → List Nat → Option (List Hdr)
  | _, [] => some []
  | fuel + 1, b0 :: b1 :: rest =>
    let nlen := b0 + 256 * b1
    if nlen ≤ rest.length then
      match rest.drop nlen with
      | c0 :: c1 :: rest2 =>
        let vlen := c0 + 256 * c1
        if vlen ≤ rest2.length then
          match decodePairs fuel (rest2.drop vlen) with
          | some pairs => some (⟨rest.take nlen, rest2.take vlen⟩ :: pairs)
          | none => none
        else none
      | _ => none
    else none
  | _, _ => none

/-- Modelled from the spec: read the 4-byte prefix, take the payload
size from bytes 1–2 (little-endian), then decode pairs until the payload
size is consumed. -/
def decodePacket (p : List Nat) : Option (List Hdr) :=
  match p with
  | _ :: a :: b :: _ :: rest =>
    if a + 256 * b = rest.length then decodePairs rest.length rest else none
  | _ => none

theorem length_payloadSpec (hs : List Hdr) :
    (payloadSpec hs).length = headersSize hs := by
  induction hs with
  | nil => rfl
  | cons h t ih =>
    rw [headersSize_cons]
    simp only [payloadSpec, List.map, List.flatten, encodePairSpec, le16] at *
    simp only [List.length_append, List.length_cons, List.length_nil] at *
    omega

theorem length_le_headersSize (hs : List Hdr) : hs.length ≤ headersSize hs := by
  induction hs with
  | nil => simp [headersSize]
  | cons h t ih => rw [headersSize_cons]; simp; omega

theorem decodePairs_payloadSpec :
    ∀ (hs : List Hdr) (fuel : Nat), hs.length ≤ fuel →
      decodePairs fuel (payloadSpec hs) = some hs := by
  intro hs
  induction hs with
  | nil =>
    intro fuel _
    cases fuel <;> rfl
  | cons h t ih =>
    intro fuel hf
    obtain ⟨nm, vl⟩ := h
    match fuel, hf with
    | fuel + 1, hf =>
      have hshape : payloadSpec (⟨nm, vl⟩ :: t) =
          nm.length % 256 :: nm.length / 256 ::
            (nm ++ (vl.length % 256 :: vl.length / 256 :: (vl ++ payloadSpec t))) := by
        simp [payloadSpec, encodePairSpec, le16]
      rw [hshape]
      simp only [decodePairs, Nat.mod_add_div]
      have h1 : nm.length ≤ (nm ++ (vl.length % 256 :: vl.length / 256 ::
          (vl ++ payloadSpec t))).length := by
        simp
      rw [if_pos h1, List.drop_left, List.take_left]
      simp only [Nat.mod_add_div]
      have h2 : vl.length ≤ (vl ++ payloadSpec t).length := by simp
      rw [if_pos h2, List.drop_left, List.take_left]
      rw [ih fuel (by simpa using Nat.lt_succ_iff.mp hf)]

/-- C2: for pairs whose names and values each fit 16 bits and whose
total encoded size is at most 65535, decoding the encoder's packet (read
the 4-byte prefix, then repeatedly read length-prefixed name and value
until the payload is consumed) yields back exactly the same ordered
sequence of pairs. -/
theorem decode_encode_roundtrip (hs : List Hdr)
    (_hfields : ∀ h ∈ hs, h.name.length ≤ 65535 ∧ h.value.length ≤ 65535)
    (hts : headersSize hs ≤ maxSize) :
    decodePacket (encodePacket hs) = some hs := by
  obtain ⟨h1, h2⟩ := encodePacket_eq_spec hts
  rw [h1, h2]
  show decodePacket
    (0 :: (headersSize hs % 256) :: (headersSize hs / 256) :: 0 :: payloadSpec hs)
    = some hs
  simp only [decodePacket, Nat.mod_add_div, length_payloadSpec]
  rw [if_pos trivial]
  exact decodePairs_payloadSpec hs _ (length_le_headersSize hs)

theorem decode_encode_roundtrip_witness :
    (∀ h ∈ hsAb, h.name.length ≤ 65535 ∧ h.value.length ≤ 65535)
    ∧ headersSize hsAb ≤ maxSize
    ∧ decodePacket (encodePacket hsAb) = some hsAb :=
  ⟨by decide, by decide, decode_encode_roundtrip hsAb (by decide) (by decide)⟩

theorem packet_format_correct_witness :
    headersSize hsAb ≤ maxSize
    ∧ (encodePacket hsAb =
        0 :: (headersSize hsAb % 256) :: (headersSize hsAb / 256) :: 0
          :: payloadSpec hsAb
      ∧ headersSize hsAb % 256 + 256 * (headersSize hsAb / 256) = headersSize hsAb
      ∧ headersSize hsAb =
          (hsAb.map fun h => h.name.length + h.value.length + 4).sum) :=
  ⟨by decide, packet_format_correct hsAb (by decide)⟩

-- ## C3: the backoff sequence under persistent transient failures

/-- A dial environment whose connect function fails with a temporary
`net.Error` on every call, with no cancellation. -/
def allTransient : DialEnv :=
  { result := fun _ => .transient, cancelDuringWait := fun _ => false }

/-- A minimal well-formed request (every string empty, no extra headers,
no local address). -/
def rEmpty : Request :=
  { rawQuery := [], method := [], contentLength := 0, requestURI := [],
    path := [], proto := [], host := [], scheme := [], headers := [],
    remoteAddr := [], localAddr := none, body := [] }

/-- Outcomes already reached within some fuel are stable under more fuel. -/
theorem connectLoop_fuel_add (env : DialEnv) (k : Nat) :
    ∀ (fuel n d : Nat) (w : List Nat) (o : ConnectOutcome),
      connectLoop env fuel n d w = some o →
      connectLoop env (fuel + k) n d w = some o := by
  intro fuel
  induction fuel with
  | zero =>
    intro n d w o h
    simp [connectLoop] at h
  | succ f ih =>
    intro n d w o h
    have heq : f + 1 + k = f + k + 1 := by omega
    rw [heq]
    rw [connectLoop] at h ⊢
    cases hr : env.result n with
    | ok => rw [hr] at h; exact h
    | canceled => rw [hr] at h; exact h
    | other => rw [hr] at h; exact h
    | transient =>
      rw [hr] at h
      by_cases h1 : 1000 < nextDelay d
      · rw [if_pos h1] at h ⊢; exact h
      · rw [if_neg h1] at h ⊢
        by_cases h2 : env.cancelDuringWait n = true
        · simp only [h2, if_true] at h ⊢; exact h
        · simp only [Bool.not_eq_true] at h2
          simp only [h2, Bool.false_eq_true, if_false] at h ⊢
          exact ih _ _ _ _ h

/-- C3: a connect function that always fails with a transient error
produces exactly the waits 5, 10, 20, 40, 80, 160, 320, 640 ms (each
double the previous, starting at 5 ms), then — the next computed delay
1280 ms exceeding one second — stops after the 9th attempt and responds
with 504 Gateway Timeout; the attempt count and total wait (1275 ms) are
deterministic: the same for every sufficient fuel. -/
theorem backoff_sequence (fuel : Nat) (hf : 9 ≤ fuel) :
    connectLoop allTransient fuel 0 0 [] =
      some (.gatewayTimeout 9 [5, 10, 20, 40, 80, 160, 320, 640])
    ∧ ([5, 10, 20, 40, 80, 160, 320, 640] : List Nat).sum = 1275
    ∧ ∀ (r : Request) (hs : List Hdr), buildHeaders r = .ok hs →
        serveHTTP r allTransient fuel = some (.errorResponse 504 9 []) := by
  have hbase : connectLoop allTransient 9 0 0 [] =
      some (.gatewayTimeout 9 [5, 10, 20, 40, 80, 160, 320, 640]) := by decide
  have hc : connectLoop allTransient fuel 0 0 [] =
      some (.gatewayTimeout 9 [5, 10, 20, 40, 80, 160, 320, 640]) := by
    have h9 : fuel = 9 + (fuel - 9) := by omega
    rw [h9]
    exact connectLoop_fuel_add _ _ 9 0 0 [] _ hbase
  refine ⟨hc, by decide, ?_⟩
  intro r hs hok
  simp only [serveHTTP, hok, hc]

theorem backoff_sequence_witness :
    connectLoop allTransient 9 0 0 [] =
      some (.gatewayTimeout 9 [5, 10, 20, 40, 80, 160, 320, 640])
    ∧ serveHTTP rEmpty allTransient 9 = some (.errorResponse 504 9 []) :=
  ⟨(backoff_sequence 9 (by decide)).1,
   (backoff_sequence 9 (by decide)).2.2 rEmpty (mappedHeaders rEmpty) (by decide)⟩

-- ## C5: trailer declarations are rejected before any backend contact

/-- A build error makes the handler write the error status and stop with
no dial attempt and no backend bytes. -/
theorem serveHTTP_buildError {r : Request} {e : MapError} (env : DialEnv)
    (fuel : Nat) (h : buildHeaders r = .error e) :
    serveHTTP r env fuel = some (.errorResponse e.status 0 []) := by
  simp only [serveHTTP, h]

/-- C5: a request declaring a Trailer header (non-empty value) is
answered with 400 Bad Request immediately: zero dial attempts and zero
bytes written to any backend connection. -/
theorem trailer_rejected (r : Request) (env : DialEnv) (fuel : Nat)
    (h : getHeader r (bytes "Trailer") ≠ []) :
    serveHTTP r env fuel = some (.errorResponse 400 0 []) := by
  have hb : buildHeaders r = .error .trailers := by
    rw [buildHeaders, if_pos h]
  exact serveHTTP_buildError env fuel hb

/-- A request declaring a trailer. -/
def rTrailer : Request :=
  { rEmpty with headers := [(bytes "Trailer", [bytes "Expires"])] }

theorem trailer_rejected_witness :
    getHeader rTrailer (bytes "Trailer") ≠ []
    ∧ serveHTTP rTrailer allTransient 5 = some (.errorResponse 400 0 []) :=
  ⟨by decide, trailer_rejected rTrailer allTransient 5 (by decide)⟩

-- ## C4: oversized headers are rejected before any backend contact

theorem extra_mem_mapped {r : Request} {h : Hdr}
    (hm : h ∈ extraHeaders r) : h ∈ mappedHeaders r := by
  rw [mappedHeaders]
  exact List.mem_append_right _ hm

theorem oversized_true_iff (h : Hdr) :
    oversized h = true ↔ maxSize < h.name.length ∨ maxSize < h.value.length := by
  simp [oversized]

/-- C4: if some transformed pass-through header's name or value exceeds
65535 bytes, or every field fits but the total encoded size exceeds
65535, the handler answers with a 4xx status, never invokes the connect
function (zero attempts), and writes zero bytes to any backend. -/
theorem oversized_rejected (r : Request) (env : DialEnv) (fuel : Nat)
    (hbad : (∃ h ∈ extraHeaders r, maxSize < h.name.length ∨ maxSize < h.value.length)
      ∨ ((∀ h ∈ mappedHeaders r, h.name.length ≤ maxSize ∧ h.value.length ≤ maxSize)
          ∧ maxSize < headersSize (mappedHeaders r))) :
    ∃ s, serveHTTP r env fuel = some (.errorResponse s 0 []) ∧ 400 ≤ s ∧ s < 500 := by
  by_cases ht : getHeader r (bytes "Trailer") ≠ []
  · have hb : buildHeaders r = .error .trailers := by rw [buildHeaders, if_pos ht]
    exact ⟨400, serveHTTP_buildError env fuel hb, by omega, by omega⟩
  · rcases hbad with ⟨h, hm, hsz⟩ | ⟨hall, hsz⟩
    · have hfind : (extraHeaders r).find? oversized ≠ none := by
        rw [Ne, List.find?_eq_none]
        push_neg
        exact ⟨h, hm, by rw [oversized_true_iff]; exact hsz⟩
      obtain ⟨h', hf⟩ := Option.ne_none_iff_exists'.mp hfind
      have hb : buildHeaders r = .error (.headerTooLarge h'.name) := by
        rw [buildHeaders, if_neg ht, hf]
      exact ⟨431, serveHTTP_buildError env fuel hb, by omega, by omega⟩
    · have hfind : (extraHeaders r).find? oversized = none := by
        rw [List.find?_eq_none]
        intro x hx
        have hb := hall x (extra_mem_mapped hx)
        simp only [Bool.not_eq_true, ← Bool.not_eq_true, oversized_true_iff]
        omega
      have hany : (mappedHeaders r).any oversized = false := by
        rw [List.any_eq_false]
        intro x hx
        have hb := hall x hx
        simp only [Bool.not_eq_true, ← Bool.not_eq_true, oversized_true_iff]
        omega
      have hb : buildHeaders r = .error .fieldsTooLarge := by
        rw [buildHeaders, if_neg ht, hfind]
        simp only [hany, Bool.false_eq_true, if_false, if_pos hsz]
      exact ⟨431, serveHTTP_buildError env fuel hb, by omega, by omega⟩

/-- A request with a header value of 65536 bytes. -/
def rBig : Request :=
  { rEmpty with headers := [(bytes "A", [List.replicate 65536 97])] }

theorem oversized_rejected_witness :
    (∃ h ∈ extraHeaders rBig, maxSize < h.name.length ∨ maxSize < h.value.length)
    ∧ ∃ s, serveHTTP rBig allTransient 0 = some (.errorResponse s 0 [])
        ∧ 400 ≤ s ∧ s < 500 := by
  have hyp : ∃ h ∈ extraHeaders rBig,
      maxSize < h.name.length ∨ maxSize < h.value.length := by
    refine ⟨⟨transformKey (bytes "A"), List.replicate 65536 97⟩, ?_, Or.inr ?_⟩
    · exact List.mem_singleton.mpr rfl
    · show maxSize < (List.replicate 65536 97).length
      rw [List.length_replicate]
      decide
  exact ⟨hyp, oversized_rejected rBig allTransient 0 (Or.inl hyp)⟩

-- ## C10: CONTENT_LENGTH is the signed decimal of r.ContentLength

/-- C10: the fourth positional variable is always
`CONTENT_LENGTH = strconv.FormatInt(r.ContentLength, 10)`, so an unknown
body length (-1, e.g. a chunked body) yields the pair
`{"CONTENT_LENGTH", "-1"}` rather than omitting the field. -/
theorem content_length_signed (r : Request) :
    (mappedHeaders r).get? 3 =
      some ⟨bytes "CONTENT_LENGTH", formatInt r.contentLength⟩
    ∧ (r.contentLength = -1 →
        Hdr.mk (bytes "CONTENT_LENGTH") (bytes "-1") ∈ mappedHeaders r) := by
  constructor
  · simp [mappedHeaders, base8]
  · intro h
    have hfmt : formatInt (-1) = bytes "-1" := by decide
    rw [mappedHeaders]
    apply List.mem_append_left
    apply List.mem_append_left
    apply List.mem_append_left
    rw [base8, h, hfmt]
    simp

/-- A request with unknown body length. -/
def rNeg1 : Request := { rEmpty with contentLength := -1 }

theorem content_length_signed_witness :
    rNeg1.contentLength = -1
    ∧ Hdr.mk (bytes "CONTENT_LENGTH") (bytes "-1") ∈ mappedHeaders rNeg1 :=
  ⟨rfl, (content_length_signed rNeg1).2 rfl⟩

-- ## C7: HTTPS flag and SERVER_PORT derivation

theorem mem_base8_name {r : Request} {h : Hdr} (hm : h ∈ base8 r) :
    h.name = bytes "QUERY_STRING" ∨ h.name = bytes "REQUEST_METHOD"
    ∨ h.name = bytes "CONTENT_TYPE" ∨ h.name = bytes "CONTENT_LENGTH"
    ∨ h.name = bytes "REQUEST_URI" ∨ h.name = bytes "PATH_INFO"
    ∨ h.name = bytes "SERVER_PROTOCOL" ∨ h.name = bytes "SERVER_NAME" := by
  simp only [base8, List.mem_cons, List.not_mem_nil, or_false] at hm
  rcases hm with rfl | rfl | rfl | rfl | rfl | rfl | rfl | rfl <;> simp

theorem mem_remotePart_name {r : Request} {h : Hdr} (hm : h ∈ remotePart r) :
    h.name = bytes "REMOTE_ADDR" ∨ h.name = bytes "REMOTE_PORT" := by
  simp only [remotePart] at hm
  cases hsp : splitHostPort r.remoteAddr with
  | none =>
    simp only [hsp] at hm
    by_cases hx : getHeader r (bytes "X-Forwarded-For") = []
    · simp [hx] at hm
    · simp [hx] at hm
      subst hm
      left; rfl
  | some hp =>
    obtain ⟨host, port⟩ := hp
    simp only [hsp] at hm
    by_cases hx : getHeader r (bytes "X-Forwarded-For") = []
    · simp [hx] at hm
      rcases hm with rfl | rfl
      · left; rfl
      · right; rfl
    · simp [hx] at hm
      rcases hm with rfl | rfl
      · left; rfl
      · right; rfl

theorem mem_extra_name {r : Request} {h : Hdr} (hm : h ∈ extraHeaders r) :
    ∃ k, h.name = transformKey k := by
  simp only [extraHeaders, List.mem_map] at hm
  obtain ⟨kv, _, rfl⟩ := hm
  exact ⟨kv.1, rfl⟩

theorem transformKey_ne_server_port (k : List Nat) :
    transformKey k ≠ bytes "SERVER_PORT" := by
  intro h
  have h1 : (transformKey k).head? = some 72 := by
    rw [transformKey, show bytes "HTTP_" = [72, 84, 84, 80, 95] from rfl]
    rfl
  rw [h] at h1
  exact absurd h1 (by decide)

theorem securityPortPart_https {r : Request} (hh : isHttps r) :
    securityPortPart r =
      [⟨bytes "HTTPS", bytes "on"⟩, ⟨bytes "SERVER_PORT", bytes "443"⟩] := by
  rw [securityPortPart, if_pos hh]

theorem securityPortPart_split {r : Request} {a host port : List Nat}
    (hn : ¬ isHttps r) (ha : r.localAddr = some a)
    (hsp : splitHostPort a = some (host, port)) :
    securityPortPart r = [⟨bytes "SERVER_PORT", port⟩] := by
  simp only [securityPortPart, if_neg hn, ha, hsp]

theorem securityPortPart_nosplit {r : Request} {a : List Nat}
    (hn : ¬ isHttps r) (ha : r.localAddr = some a)
    (hsp : splitHostPort a = none) :
    securityPortPart r = [] := by
  simp only [securityPortPart, if_neg hn, ha, hsp]

theorem securityPortPart_noaddr {r : Request} (hn : ¬ isHttps r)
    (ha : r.localAddr = none) :
    securityPortPart r = [⟨bytes "SERVER_PORT", bytes "80"⟩] := by
  simp only [securityPortPart, if_neg hn, ha]

theorem mem_securityPortPart_mapped {r : Request} {h : Hdr}
    (hm : h ∈ securityPortPart r) : h ∈ mappedHeaders r := by
  rw [mappedHeaders]
  exact List.mem_append_left _
    (List.mem_append_left _ (List.mem_append_right _ hm))

/-- A request with a local address that does not split into host:port. -/
def rFoo : Request := { rEmpty with localAddr := some (bytes "foo") }

/-- C7 counterexample: the claim says SERVER_PORT "is derived from the
local connection's address when that address is available", but with an
available local address that does not split into host:port the handler
emits no SERVER_PORT variable at all (the fallback "80" applies only
when no local address is available). -/
theorem https_port_counterexample :
    rFoo.localAddr = some (bytes "foo")
    ∧ ¬ isHttps rFoo
    ∧ ∀ h ∈ mappedHeaders rFoo, h.name ≠ bytes "SERVER_PORT" := by decide

/-- C7 (amended): a https request (by scheme or X-Forwarded-Proto) emits
HTTPS="on" and SERVER_PORT="443" regardless of the local port; otherwise
SERVER_PORT is the port split from the local address when one is present
and splits, no SERVER_PORT at all when one is present but does not
split, and the default "80" only when no local address is available. -/
theorem https_port_amended (r : Request) :
    (isHttps r →
      Hdr.mk (bytes "HTTPS") (bytes "on") ∈ mappedHeaders r
      ∧ Hdr.mk (bytes "SERVER_PORT") (bytes "443") ∈ mappedHeaders r)
    ∧ (¬ isHttps r →
        (∀ a host port, r.localAddr = some a →
          splitHostPort a = some (host, port) →
          Hdr.mk (bytes "SERVER_PORT") port ∈ mappedHeaders r)
        ∧ (∀ a, r.localAddr = some a → splitHostPort a = none →
            ∀ h ∈ mappedHeaders r, h.name ≠ bytes "SERVER_PORT")
        ∧ (r.localAddr = none →
            Hdr.mk (bytes "SERVER_PORT") (bytes "80") ∈ mappedHeaders r)) := by
  constructor
  · intro hh
    constructor
    · apply mem_securityPortPart_mapped
      rw [securityPortPart_https hh]
      simp
    · apply mem_securityPortPart_mapped
      rw [securityPortPart_https hh]
      simp
  · intro hn
    refine ⟨?_, ?_, ?_⟩
    · intro a host port ha hsp
      apply mem_securityPortPart_mapped
      rw [securityPortPart_split hn ha hsp]
      simp
    · intro a ha hsp h hm hname
      rw [mappedHeaders] at hm
      rcases List.mem_append.mp hm with hm' | hex
      · rcases List.mem_append.mp hm' with hm'' | hrem
        · rcases List.mem_append.mp hm'' with hb | hsec
          · rcases mem_base8_name hb with
              he | he | he | he | he | he | he | he <;>
              · rw [he] at hname; exact absurd hname (by decide)
          · rw [securityPortPart_nosplit hn ha hsp] at hsec
            simp at hsec
        · rcases mem_remotePart_name hrem with he | he <;>
            · rw [he] at hname; exact absurd hname (by decide)
      · obtain ⟨k, hk⟩ := mem_extra_name hex
        rw [hk] at hname
        exact transformKey_ne_server_port k hname
    · intro ha
      apply mem_securityPortPart_mapped
      rw [securityPortPart_noaddr hn ha]
      simp

/-- A https request (by X-Forwarded-Proto) whose local address carries a
non-443 port. -/
def rHttps : Request :=
  { rEmpty with
    headers := [(bytes "X-Forwarded-Proto", [bytes "https"])],
    localAddr := some (bytes "1.2.3.4:8080") }

theorem https_port_amended_witness :
    isHttps rHttps
    ∧ Hdr.mk (bytes "HTTPS") (bytes "on") ∈ mappedHeaders rHttps
    ∧ Hdr.mk (bytes "SERVER_PORT") (bytes "443") ∈ mappedHeaders rHttps := by
  have hh : isHttps rHttps := by decide
  exact ⟨hh, ((https_port_amended rHttps).1 hh).1, ((https_port_amended rHttps).1 hh).2⟩

-- ## C8: REMOTE_ADDR / REMOTE_PORT derivation

/-- First emitted value under a given variable name (the receiving
process reads the first occurrence). -/
def headerValue (n : List Nat) (hs : List Hdr) : Option (List Nat) :=
  (hs.find? fun h => h.name == n).map Hdr.value

/-- The left-most comma-separated entry of a header value, as the claim
words it: everything before the first comma. -/
def leftmostEntry (s : List Nat) : List Nat :=
  s.takeWhile fun b => b ≠ 44

theorem find?_append_of_none {p : Hdr → Bool} {l1 l2 : List Hdr}
    (h : l1.find? p = none) : (l1 ++ l2).find? p = l2.find? p := by
  induction l1 with
  | nil => rfl
  | cons a t ih =>
    cases hpa : p a with
    | true => simp [List.find?, hpa] at h
    | false =>
      simp only [List.cons_append, List.find?, hpa] at h ⊢
      exact ih h

theorem securityPortPart_find?_remote (r : Request) (n : List Nat)
    (hn : n = bytes "REMOTE_ADDR" ∨ n = bytes "REMOTE_PORT") :
    (securityPortPart r).find? (fun h => h.name == n) = none := by
  rw [List.find?_eq_none]
  intro x hx
  rw [securityPortPart] at hx
  have hname : x.name = bytes "HTTPS" ∨ x.name = bytes "SERVER_PORT" := by
    by_cases hh : isHttps r
    · rw [if_pos hh] at hx
      simp at hx
      rcases hx with rfl | rfl
      · left; rfl
      · right; rfl
    · rw [if_neg hh] at hx
      cases ha : r.localAddr with
      | none => simp [ha] at hx; subst hx; right; rfl
      | some a =>
        rw [ha] at hx
        cases hsp : splitHostPort a with
        | none => simp [hsp] at hx
        | some hp =>
          simp [hsp] at hx
          subst hx
          right; rfl
  simp only [beq_iff_eq]
  rcases hname with he | he <;> rcases hn with rfl | rfl <;>
    rw [he] <;> decide

theorem headerValue_mapped_remote (r : Request) (n : List Nat)
    (hn : n = bytes "REMOTE_ADDR" ∨ n = bytes "REMOTE_PORT") :
    headerValue n (mappedHeaders r) = headerValue n (remotePart r) := by
  have hb8 : (base8 r).find? (fun h => h.name == n) = none := by
    rw [List.find?_eq_none]
    intro x hx
    simp only [beq_iff_eq]
    rcases mem_base8_name hx with he|he|he|he|he|he|he|he <;>
      rcases hn with rfl | rfl <;> rw [he] <;> decide
  rw [headerValue, headerValue, mappedHeaders, List.append_assoc,
    List.append_assoc, find?_append_of_none hb8,
    find?_append_of_none (securityPortPart_find?_remote r n hn)]
  -- remaining: find? over remotePart ++ extraHeaders vs remotePart
  by_cases hrp : (remotePart r).find? (fun h => h.name == n) = none
  · have hex : (extraHeaders r).find? (fun h => h.name == n) = none := by
      rw [List.find?_eq_none]
      intro x hx
      obtain ⟨k, hk⟩ := mem_extra_name hx
      simp only [beq_iff_eq, hk]
      intro he
      have h1 : (transformKey k).head? = some 72 := by
        rw [transformKey, show bytes "HTTP_" = [72, 84, 84, 80, 95] from rfl]
        rfl
      rw [he] at h1
      rcases hn with rfl | rfl <;> exact absurd h1 (by decide)
    rw [find?_append_of_none hrp, hex, hrp]
  · obtain ⟨x, hx⟩ := Option.ne_none_iff_exists'.mp hrp
    rw [List.find?_append, hx]
    rfl

theorem ra_beq_rp_false :
    (bytes "REMOTE_ADDR" == bytes "REMOTE_PORT") = false := by decide

theorem remotePart_xff {r : Request}
    (hx : getHeader r (bytes "X-Forwarded-For") ≠ []) :
    headerValue (bytes "REMOTE_ADDR") (remotePart r) =
      some (stripComma (getHeader r (bytes "X-Forwarded-For")))
    ∧ ∀ host port, splitHostPort r.remoteAddr = some (host, port) →
        headerValue (bytes "REMOTE_PORT") (remotePart r) = some port := by
  constructor
  · rw [headerValue, remotePart]
    cases hsp : splitHostPort r.remoteAddr with
    | none => simp [hx, List.find?]
    | some hp =>
      obtain ⟨host, port⟩ := hp
      simp [hx, List.find?]
  · intro host port hsp
    rw [headerValue, remotePart, hsp]
    simp [hx, List.find?, ra_beq_rp_false]

theorem remotePart_noxff {r : Request}
    (hx : getHeader r (bytes "X-Forwarded-For") = [])
    {host port : List Nat} (hsp : splitHostPort r.remoteAddr = some (host, port)) :
    headerValue (bytes "REMOTE_ADDR") (remotePart r) = some host
    ∧ headerValue (bytes "REMOTE_PORT") (remotePart r) = some port := by
  constructor <;>
    · rw [headerValue, remotePart, hsp]
      simp [hx, List.find?, ra_beq_rp_false]

/-- A request whose X-Forwarded-For value begins with a comma. -/
def rLead : Request :=
  { rEmpty with
    headers := [(bytes "X-Forwarded-For", [bytes ",5.6.7.6"])],
    remoteAddr := bytes "9.9.9.9:555" }

/-- C8 counterexample: for the forwarding header ",5.6.7.6" the
left-most comma-separated entry is the empty string, but the handler
emits the whole header value verbatim as REMOTE_ADDR, because
`strings.IndexByte` returns index 0 and the `i > 0` guard keeps the
value uncut. -/
theorem forwarded_addr_counterexample :
    getHeader rLead (bytes "X-Forwarded-For") = bytes ",5.6.7.6"
    ∧ headerValue (bytes "REMOTE_ADDR") (mappedHeaders rLead) =
        some (bytes ",5.6.7.6")
    ∧ leftmostEntry (bytes ",5.6.7.6") = []
    ∧ headerValue (bytes "REMOTE_ADDR") (mappedHeaders rLead) ≠
        some (leftmostEntry (bytes ",5.6.7.6")) := by decide

/-- C8 (amended): with a forwarding header present, REMOTE_ADDR is the
header value cut at its first comma when that comma sits at a strictly
positive index, and the whole value otherwise; REMOTE_PORT still comes
from the directly connected peer's address when it splits into host and
port.  Without a forwarding header, REMOTE_ADDR is the peer's host when
the peer address splits. -/
theorem forwarded_addr_amended (r : Request) :
    (getHeader r (bytes "X-Forwarded-For") ≠ [] →
      headerValue (bytes "REMOTE_ADDR") (mappedHeaders r) =
        some (stripComma (getHeader r (bytes "X-Forwarded-For")))
      ∧ ∀ host port, splitHostPort r.remoteAddr = some (host, port) →
          headerValue (bytes "REMOTE_PORT") (mappedHeaders r) = some port)
    ∧ (getHeader r (bytes "X-Forwarded-For") = [] →
        ∀ host port, splitHostPort r.remoteAddr = some (host, port) →
          headerValue (bytes "REMOTE_ADDR") (mappedHeaders r) = some host) := by
  have hra := headerValue_mapped_remote r (bytes "REMOTE_ADDR") (Or.inl rfl)
  have hrp := headerValue_mapped_remote r (bytes "REMOTE_PORT") (Or.inr rfl)
  constructor
  · intro hx
    exact ⟨hra.trans (remotePart_xff hx).1,
      fun host port hsp => hrp.trans ((remotePart_xff hx).2 host port hsp)⟩
  · intro hx host port hsp
    exact hra.trans (remotePart_noxff hx hsp).1

/-- The claim's concrete example: forwarding header "1.2.3.4, 5.6.7.6"
and direct peer "9.9.9.9:555". -/
def rEx : Request :=
  { rEmpty with
    headers := [(bytes "X-Forwarded-For", [bytes "1.2.3.4, 5.6.7.6"])],
    remoteAddr := bytes "9.9.9.9:555" }

theorem forwarded_addr_amended_witness :
    getHeader rEx (bytes "X-Forwarded-For") ≠ []
    ∧ headerValue (bytes "REMOTE_ADDR") (mappedHeaders rEx) =
        some (bytes "1.2.3.4")
    ∧ headerValue (bytes "REMOTE_PORT") (mappedHeaders rEx) =
        some (bytes "555") := by
  have hx : getHeader rEx (bytes "X-Forwarded-For") ≠ [] := by decide
  have h := (forwarded_addr_amended rEx).1 hx
  refine ⟨hx, ?_, h.2 (bytes "9.9.9.9") (bytes "555") (by decide)⟩
  rw [h.1]
  decide

-- ## C9: determinism of the header mapper vs Go map iteration order

theorem lookupVals_perm :
    ∀ {l1 l2 : List (List Nat × List (List Nat))}, l1.Perm l2 →
      (l1.map Prod.fst).Nodup → ∀ k : List Nat,
      lookupVals k l1 = lookupVals k l2 := by
  intro l1 l2 p
  induction p with
  | nil => intro _ _; rfl
  | cons x p ih =>
    intro hnd k
    simp only [List.map_cons, List.nodup_cons] at hnd
    simp only [lookupVals]
    by_cases hx : x.1 = k
    · rw [if_pos hx, if_pos hx]
    · rw [if_neg hx, if_neg hx]
      exact ih hnd.2 k
  | swap x y t =>
    intro hnd k
    simp only [List.map_cons, List.nodup_cons, List.mem_cons] at hnd
    simp only [lookupVals]
    by_cases hy : y.1 = k <;> by_cases hx : x.1 = k
    · exact absurd (Or.inl (hy.trans hx.symm)) hnd.1
    · rw [if_pos hy, if_neg hx, if_pos hy]
    · rw [if_neg hy, if_pos hx, if_pos hx]
    · rw [if_neg hy, if_neg hx, if_neg hx, if_neg hy]
  | trans p1 p2 ih1 ih2 =>
    intro hnd k
    rw [ih1 hnd k]
    exact ih2 ((p1.map Prod.fst).nodup_iff.mp hnd) k

theorem getHeader_perm {r : Request} {l2 : List (List Nat × List (List Nat))}
    (p : r.headers.Perm l2) (hnd : (r.headers.map Prod.fst).Nodup)
    (k : List Nat) :
    getHeader { r with headers := l2 } k = getHeader r k := by
  rw [getHeader, getHeader,
    show ({ r with headers := l2 } : Request).headers = l2 from rfl,
    ← lookupVals_perm p hnd k]

/-- Two presentations of the same header map (two iteration orders of the
same two keys). -/
def r9a : Request :=
  { rEmpty with headers := [(bytes "A", [bytes "1"]), (bytes "B", [bytes "2"])] }

/-- The same request as `r9a` with the opposite map iteration order. -/
def r9b : Request :=
  { rEmpty with headers := [(bytes "B", [bytes "2"]), (bytes "A", [bytes "1"])] }

/-- C9 counterexample: the Go map `r.Header` is iterated with `range`,
whose order is randomized per execution; two orders of the same
two-entry map are both possible executions on the same request yet give
different ordered variable sequences, so the emitted order is not a
function of the request alone. -/
theorem mapper_deterministic_counterexample :
    r9a.headers.Perm r9b.headers
    ∧ r9b = { r9a with headers := r9b.headers }
    ∧ mappedHeaders r9a ≠ mappedHeaders r9b :=
  ⟨by decide, rfl, by decide⟩

/-- C9 (amended): for a fixed map iteration order the mapper is a pure
function of the request; the well-known positional variables form a
deterministic prefix unaffected by the iteration order, and the
pass-through tail is always the same multiset — the transformed inbound
headers — in map iteration order, which may differ between executions. -/
theorem mapper_deterministic_amended (r : Request)
    (l2 : List (List Nat × List (List Nat)))
    (hperm : r.headers.Perm l2)
    (hnd : (r.headers.map Prod.fst).Nodup) :
    base8 { r with headers := l2 } = base8 r
    ∧ securityPortPart { r with headers := l2 } = securityPortPart r
    ∧ remotePart { r with headers := l2 } = remotePart r
    ∧ (extraHeaders { r with headers := l2 }).Perm (extraHeaders r)
    ∧ mappedHeaders { r with headers := l2 } =
        base8 { r with headers := l2 }
          ++ securityPortPart { r with headers := l2 }
          ++ remotePart { r with headers := l2 }
          ++ extraHeaders { r with headers := l2 } := by
  have hget := getHeader_perm hperm hnd
  refine ⟨?_, ?_, ?_, ?_, rfl⟩
  · simp only [base8, hget]
  · have hhe : isHttps { r with headers := l2 } = isHttps r := by
      unfold isHttps
      rw [hget]
    simp only [securityPortPart, hhe]
  · simp only [remotePart, hget]
  · exact (hperm.map _).symm

theorem mapper_deterministic_amended_witness :
    r9a.headers.Perm r9b.headers
    ∧ (r9a.headers.map Prod.fst).Nodup
    ∧ base8 { r9a with headers := r9b.headers } = base8 r9a
    ∧ (extraHeaders { r9a with headers := r9b.headers }).Perm
        (extraHeaders r9a) := by
  have hp : r9a.headers.Perm r9b.headers := by decide
  have hnd : (r9a.headers.map Prod.fst).Nodup := by decide
  have h := mapper_deterministic_amended r9a r9b.headers hp hnd
  exact ⟨hp, hnd, h.1, h.2.2.2.1⟩

-- ## C6: cancellation aborts the handler without a response

/-- The value of `tempDelay` when the n-th dial attempt is made: 0 before
the first attempt, then 5·2^(n-1) ms. -/
def delayBefore : Nat → Nat
  | 0 => 0
  | n + 1 => 5 * 2 ^ n

theorem nextDelay_delayBefore (n : Nat) :
    nextDelay (delayBefore n) = delayBefore (n + 1) := by
  cases n with
  | zero => decide
  | succ k =>
    show nextDelay (5 * 2 ^ k) = 5 * 2 ^ (k + 1)
    rw [nextDelay, if_neg (by positivity), pow_succ]
    ring

theorem delayBefore_le {n : Nat} (hn : n ≤ 8) : delayBefore n ≤ 1000 := by
  cases n with
  | zero => decide
  | succ k =>
    show 5 * 2 ^ k ≤ 1000
    have h2 : 2 ^ k ≤ 2 ^ 7 := Nat.pow_le_pow_right (by omega) (by omega)
    have h7 : (2 : Nat) ^ 7 = 128 := by decide
    omega

/-- One transient attempt followed by a completed (uncancelled) wait
advances the loop one step. -/
theorem connectLoop_advance (env : DialEnv) (n fuel d : Nat) (w : List Nat)
    (hres : env.result n = .transient)
    (hcw : env.cancelDuringWait n = false)
    (hd : nextDelay d ≤ 1000) :
    connectLoop env (fuel + 1) n d w =
      connectLoop env fuel (n + 1) (nextDelay d) (nextDelay d :: w) := by
  simp only [connectLoop, hres]
  rw [if_neg (Nat.not_lt.mpr hd), hcw]
  simp

/-- After n transient attempts with completed waits, the loop is at
attempt n with `tempDelay = delayBefore n`. -/
theorem connectLoop_reach (env : DialEnv) : ∀ n fuel : Nat,
    (∀ k < n, env.result k = .transient ∧ env.cancelDuringWait k = false) →
    n ≤ 8 → n ≤ fuel →
    ∃ w : List Nat, connectLoop env fuel 0 0 [] =
      connectLoop env (fuel - n) n (delayBefore n) w := by
  intro n
  induction n with
  | zero =>
    intro fuel _ _ _
    exact ⟨[], by rw [Nat.sub_zero]; rfl⟩
  | succ m ih =>
    intro fuel hpre h8 hfl
    obtain ⟨w, hw⟩ := ih fuel (fun k hk => hpre k (by omega)) (by omega) (by omega)
    have hfm : fuel - m = (fuel - (m + 1)) + 1 := by omega
    have hdel : nextDelay (delayBefore m) ≤ 1000 := by
      rw [nextDelay_delayBefore]
      exact delayBefore_le h8
    refine ⟨delayBefore (m + 1) :: w, ?_⟩
    rw [hw, hfm,
      connectLoop_advance env m _ _ w (hpre m (by omega)).1 (hpre m (by omega)).2 hdel,
      nextDelay_delayBefore]

/-- C6: if, after any run of transient attempts with completed waits,
the dial function returns `context.Canceled`, or the request context is
cancelled during a backoff wait, the handler panics with
`http.ErrAbortHandler`: no error response is written, no further dial
attempt is made (attempts = n+1), and no byte reaches any backend. -/
theorem cancel_aborts (r : Request) (env : DialEnv) (hs : List Hdr) (n fuel : Nat)
    (hok : buildHeaders r = .ok hs)
    (hpre : ∀ k < n, env.result k = .transient ∧ env.cancelDuringWait k = false)
    (hcase : (env.result n = .canceled ∧ n ≤ 8)
      ∨ (env.result n = .transient ∧ env.cancelDuringWait n = true ∧ n ≤ 7))
    (hfl : n + 1 ≤ fuel) :
    ∃ ws, connectLoop env fuel 0 0 [] = some (.abortPanic (n + 1) ws)
      ∧ serveHTTP r env fuel = some (.aborted (n + 1) []) := by
  have h8 : n ≤ 8 := by rcases hcase with ⟨_, h⟩ | ⟨_, _, h⟩ <;> omega
  obtain ⟨w, hw⟩ := connectLoop_reach env n fuel hpre h8 (by omega)
  have hfm : fuel - n = (fuel - (n + 1)) + 1 := by omega
  have habort : connectLoop env fuel 0 0 [] =
      some (.abortPanic (n + 1) w.reverse) := by
    rw [hw, hfm]
    rcases hcase with ⟨hres, _⟩ | ⟨hres, hcw, h7⟩
    · simp only [connectLoop, hres]
    · have hdel : nextDelay (delayBefore n) ≤ 1000 := by
        rw [nextDelay_delayBefore]
        exact delayBefore_le (by omega)
      simp only [connectLoop, hres]
      rw [if_neg (Nat.not_lt.mpr hdel), hcw]
      simp
  refine ⟨w.reverse, habort, ?_⟩
  simp only [serveHTTP, hok, habort]

/-- A dial function whose first call reports `context.Canceled`. -/
def envCancel : DialEnv :=
  { result := fun _ => .canceled, cancelDuringWait := fun _ => false }

theorem cancel_aborts_witness :
    buildHeaders rEmpty = .ok (mappedHeaders rEmpty)
    ∧ ∃ ws, connectLoop envCancel 1 0 0 [] = some (.abortPanic 1 ws)
        ∧ serveHTTP rEmpty envCancel 1 = some (.aborted 1 []) :=
  ⟨by decide,
   cancel_aborts rEmpty envCancel (mappedHeaders rEmpty) 0 1 (by decide)
     (fun k hk => absurd hk (Nat.not_lt_zero k))
     (Or.inl ⟨rfl, by omega⟩) (by omega)⟩
